import Mathlib

/-!
Verification of the stress-monitor training pipeline.

This file gives a shallow embedding, in Lean 4, of the numeric core of the
training pipeline found in `src/training/wesad_prepare.py`,
`src/training/merge_local_and_train.py` and `src/training/train_stress_model.py`,
and proves properties of that embedding.

Modelling conventions:
* floating-point sample values are modelled by exact rationals `ℚ`
  (and by `ℝ` where a square root or the logistic link appears);
* `NaN` cells are modelled by `Option` (or by a dedicated cell type where
  infinities must be distinguished);
* external library routines (scipy peak detection, the sklearn estimator
  internals, the seeded random group draw) are either taken as explicit
  function parameters or modelled from the specification; each such
  definition says so in its doc comment.
-/

namespace StressMonitor

/-- Arithmetic mean of a list of rationals, as `np.mean` computes it
(`sum / size`; in the rational model the empty case gives `0/0 = 0`, and
every use in the source is guarded by an emptiness or size check). -/
def listMean (l : List ℚ) : ℚ := l.sum / l.length

/-- Population variance (`np.std` squared, `ddof = 0`). -/
def popVar (l : List ℚ) : ℚ := listMean (l.map (fun v => (v - listMean l) ^ 2))

/-- Minimum of a list, as `np.min` on a nonempty array (0 for the empty list,
which the source never passes). -/
def listMin : List ℚ → ℚ
  | [] => 0
  | a :: t => t.foldl min a

/-- Maximum of a list, as `np.max` on a nonempty array. -/
def listMax : List ℚ → ℚ
  | [] => 0
  | a :: t => t.foldl max a

/-! ## Heart-rate / HRV extractor (`wesad_prepare._hr_features_from_bvp`) -/

/-- Result record of the HR/HRV extractor: the six output fields of
`_hr_features_from_bvp`. `none` models the `np.nan` (undefined) value. -/
structure HRFeatures where
  bpm_avg : Option ℝ
  bpm_min : Option ℝ
  bpm_max : Option ℝ
  bpm_std : Option ℝ
  hrv_rmssd : Option ℝ
  hrv_sdnn : Option ℝ

/-- The all-undefined result that `_hr_features_from_bvp` returns on
insufficient data: every one of the six fields is `np.nan`. -/
def undefinedHR : HRFeatures :=
  { bpm_avg := none, bpm_min := none, bpm_max := none,
    bpm_std := none, hrv_rmssd := none, hrv_sdnn := none }

/-- Conversion of consecutive detected-peak index gaps to inter-beat
intervals in seconds: `rr = np.diff(peaks) / fs`
(`wesad_prepare.py` line 78). -/
def rrFromPeaks (peaks : List ℕ) (fs : ℕ) : List ℚ :=
  (peaks.zip peaks.tail).map (fun p => ((p.2 : ℚ) - (p.1 : ℚ)) / (fs : ℚ))

/-- Physiological-plausibility filter on inter-beat intervals:
`rr = rr[(rr > 0.3) & (rr < 1.8)]` (`wesad_prepare.py` line 79).
Note both comparisons in the source are strict. -/
def rrFilter (rr : List ℚ) : List ℚ :=
  rr.filter (fun r => decide ((0.3 : ℚ) < r) && decide (r < (1.8 : ℚ)))

/-- Shallow embedding of `_hr_features_from_bvp` (`wesad_prepare.py`
lines 49-104). The scipy routine `scipy.signal.find_peaks` is external
library code and is taken as the explicit parameter `findPeaks`
(signal, minimum peak distance) ↦ peak indices; the fixed prominence
threshold `0.2` of the call site is absorbed into that parameter. -/
noncomputable def hr_features_from_bvp (findPeaks : List ℝ → ℕ → List ℕ)
    (bvp : List ℚ) (fs : ℕ) : HRFeatures :=
  if bvp.length < fs then undefinedHR else
  let centered0 := bvp.map (fun v => v - listMean bvp)
  let scale : ℝ := Real.sqrt (popVar centered0)
  let centered : List ℝ :=
    if (1e-9 : ℝ) < scale then centered0.map (fun v => (v : ℝ) / scale)
    else centered0.map (fun v => (v : ℝ))
  let distance := max 1 (Nat.floor ((fs : ℚ) * 0.4))
  let peaks := findPeaks centered distance
  if peaks.length < 2 then undefinedHR else
  let rr := rrFilter (rrFromPeaks peaks fs)
  if rr.length < 2 then undefinedHR else
  let bpm := rr.map (fun r => 60 / r)
  let rr_ms := rr.map (fun r => r * 1000)
  let diff_rr := (rr_ms.zip rr_ms.tail).map (fun p => p.2 - p.1)
  { bpm_avg := some ((listMean bpm : ℚ) : ℝ),
    bpm_min := some ((listMin bpm : ℚ) : ℝ),
    bpm_max := some ((listMax bpm : ℚ) : ℝ),
    bpm_std := some (Real.sqrt (popVar bpm)),
    hrv_rmssd :=
      if diff_rr.length = 0 then none
      else some (Real.sqrt ((listMean (diff_rr.map (fun d => d * d)) : ℚ) : ℝ)),
    hrv_sdnn :=
      if rr_ms.length = 0 then none
      else some (Real.sqrt (popVar rr_ms)) }

/-- C3: for every pulse segment with fewer samples than the sample rate
(shorter than one second), the HR/HRV extractor returns the all-undefined
result — all six fields are `none` (undefined), in particular none of them
is zero — for every possible behaviour of the external peak detector.
The embedding is a total function, so no exception is possible. -/
theorem hr_short_segment_all_undefined (findPeaks : List ℝ → ℕ → List ℕ)
    (bvp : List ℚ) (fs : ℕ) (h : bvp.length < fs) :
    hr_features_from_bvp findPeaks bvp fs = undefinedHR ∧
    (hr_features_from_bvp findPeaks bvp fs).bpm_avg = none ∧
    (hr_features_from_bvp findPeaks bvp fs).bpm_min = none ∧
    (hr_features_from_bvp findPeaks bvp fs).bpm_max = none ∧
    (hr_features_from_bvp findPeaks bvp fs).bpm_std = none ∧
    (hr_features_from_bvp findPeaks bvp fs).hrv_rmssd = none ∧
    (hr_features_from_bvp findPeaks bvp fs).hrv_sdnn = none := by
  have he : hr_features_from_bvp findPeaks bvp fs = undefinedHR := by
    unfold hr_features_from_bvp
    rw [if_pos h]
  refine ⟨he, ?_, ?_, ?_, ?_, ?_, ?_⟩ <;> rw [he] <;> rfl

/-- Witness for C3 at a concrete input: a 2-sample segment at 64 Hz. -/
theorem hr_short_segment_all_undefined_witness :
    hr_features_from_bvp (fun _ _ => []) [1, 2] 64 = undefinedHR :=
  (hr_short_segment_all_undefined (fun _ _ => []) [1, 2] 64 (by decide)).1

/-- C4 counterexample: an inter-beat interval of exactly 0.3 s (peak gap 3
at 10 Hz) is produced by the gap-to-seconds conversion but is discarded by
the filter, contradicting the claim that intervals equal to 0.3 s are
retained. -/
theorem rr_endpoint_discarded_cex :
    rrFromPeaks [0, 3] 10 = [(0.3 : ℚ)] ∧ rrFilter [(0.3 : ℚ)] = [] := by
  constructor
  · norm_num [rrFromPeaks]
  · norm_num [rrFilter, List.filter]

/-- C4 (amended): the HR/HRV extractor retains exactly the inter-beat
intervals lying strictly inside the open interval (0.3 s, 1.8 s); an
interval equal to either endpoint is discarded. -/
theorem rr_filter_retains_open_interval (peaks : List ℕ) (fs : ℕ) (r : ℚ) :
    r ∈ rrFilter (rrFromPeaks peaks fs) ↔
      r ∈ rrFromPeaks peaks fs ∧ (0.3 : ℚ) < r ∧ r < (1.8 : ℚ) := by
  simp [rrFilter, List.mem_filter]

/-! ## Majority-vote label (`wesad_prepare._majority_label`) -/

/-- Sorted distinct values of a label array, as `np.unique` returns them
(ascending order, each value once). -/
def sortedUnique (l : List ℤ) : List ℤ := List.insertionSort (· ≤ ·) l.dedup

/-- One step of `np.argmax` over a (value, count) sequence: keep the current
best unless the challenger has a strictly greater count, so on ties the
earlier entry wins. -/
def argStep (best q : ℤ × ℕ) : ℤ × ℕ := if best.2 < q.2 then q else best

/-- First maximum of a (value, count) sequence, as
`vals[np.argmax(counts)]` computes it (0 for the empty sequence, which the
source never passes: `np.argmax` on an empty array raises instead). -/
def firstArgmax (l : List (ℤ × ℕ)) : ℤ :=
  match l with
  | [] => 0
  | p :: ps => (ps.foldl argStep p).1

/-- Shallow embedding of `_majority_label` (`wesad_prepare.py` lines
107-109): `vals, counts = np.unique(labels, return_counts=True);
return vals[np.argmax(counts)]`. -/
def majority_label (labels : List ℤ) : ℤ :=
  firstArgmax ((sortedUnique labels).map (fun v => (v, labels.count v)))

theorem foldl_argStep_spec (ps : List (ℤ × ℕ)) (p : ℤ × ℕ)
    (hs : (p :: ps).Pairwise (fun a b => a.1 < b.1)) :
    ps.foldl argStep p ∈ p :: ps ∧
    (∀ q ∈ p :: ps, q.2 ≤ (ps.foldl argStep p).2) ∧
    (∀ q ∈ p :: ps, q.2 = (ps.foldl argStep p).2 → (ps.foldl argStep p).1 ≤ q.1) := by
  induction ps generalizing p with
  | nil =>
    refine ⟨List.mem_singleton_self p, ?_, ?_⟩
    · intro q hq; rw [List.mem_singleton] at hq; subst hq; exact le_rfl
    · intro q hq _; rw [List.mem_singleton] at hq; subst hq; exact le_rfl
  | cons a t ih =>
    rw [List.pairwise_cons] at hs
    obtain ⟨hpa, hat⟩ := hs
    rw [List.pairwise_cons] at hat
    obtain ⟨hab, ht⟩ := hat
    have hfold : (a :: t).foldl argStep p = t.foldl argStep (argStep p a) := rfl
    by_cases hlt : p.2 < a.2
    · have hstep : argStep p a = a := by simp [argStep, hlt]
      have hs' : (a :: t).Pairwise (fun x y => x.1 < y.1) :=
        List.pairwise_cons.mpr ⟨hab, ht⟩
      obtain ⟨hmem, hmax, htie⟩ := ih a hs'
      rw [hfold, hstep]
      refine ⟨?_, ?_, ?_⟩
      · exact List.mem_cons_of_mem p hmem
      · intro q hq
        rcases List.mem_cons.mp hq with hq | hq
        · rw [hq]
          exact le_trans (le_of_lt hlt) (hmax a (List.mem_cons_self a t))
        · exact hmax q hq
      · intro q hq hq2
        rcases List.mem_cons.mp hq with hq | hq
        · rw [hq] at hq2
          exact absurd hq2 (by
            have := hmax a (List.mem_cons_self a t)
            omega)
        · exact htie q hq hq2
    · have hstep : argStep p a = p := by simp [argStep, hlt]
      have hs' : (p :: t).Pairwise (fun x y => x.1 < y.1) := by
        refine List.pairwise_cons.mpr ⟨?_, ht⟩
        intro b hb
        exact hpa b (List.mem_cons_of_mem a hb)
      obtain ⟨hmem, hmax, htie⟩ := ih p hs'
      rw [hfold, hstep]
      refine ⟨?_, ?_, ?_⟩
      · rcases List.mem_cons.mp hmem with hm | hm
        · rw [hm]; exact List.mem_cons_self p (a :: t)
        · exact List.mem_cons_of_mem p (List.mem_cons_of_mem a hm)
      · intro q hq
        rcases List.mem_cons.mp hq with hq | hq
        · rw [hq]; exact hmax p (List.mem_cons_self p t)
        rcases List.mem_cons.mp hq with hq | hq
        · rw [hq]
          exact le_trans (le_of_not_lt hlt) (hmax p (List.mem_cons_self p t))
        · exact hmax q (List.mem_cons_of_mem p hq)
      · intro q hq hq2
        rcases List.mem_cons.mp hq with hq | hq
        · rw [hq]
          exact htie p (List.mem_cons_self p t) (by rw [hq] at hq2; exact hq2)
        rcases List.mem_cons.mp hq with hq | hq
        · -- q = a: the fold result must then be the head p, which sits before a
          have hpmax : p.2 ≤ (t.foldl argStep p).2 := hmax p (List.mem_cons_self p t)
          have hp2 : p.2 = (t.foldl argStep p).2 := by
            rw [hq] at hq2
            omega
          have hrle : (t.foldl argStep p).1 ≤ p.1 := htie p (List.mem_cons_self p t) hp2
          rcases List.mem_cons.mp hmem with hm | hm
          · rw [hm, hq]; exact le_of_lt (hpa a (List.mem_cons_self a t))
          · exact absurd (hpa _ (List.mem_cons_of_mem a hm)) (not_lt_of_le hrle)
        · exact htie q (List.mem_cons_of_mem p hq) hq2

theorem sortedUnique_pairwise_lt (labels : List ℤ) :
    (sortedUnique labels).Pairwise (· < ·) := by
  have hsorted : (sortedUnique labels).Sorted (· ≤ ·) :=
    List.sorted_insertionSort _ _
  have hnodup : (sortedUnique labels).Nodup :=
    (List.perm_insertionSort _ _).nodup_iff.mpr labels.nodup_dedup
  exact (hsorted.and hnodup).imp (fun h => lt_of_le_of_ne h.1 h.2)

theorem mem_sortedUnique (labels : List ℤ) (v : ℤ) :
    v ∈ sortedUnique labels ↔ v ∈ labels := by
  rw [sortedUnique, (List.perm_insertionSort _ _).mem_iff, List.mem_dedup]

/-- C5: for every nonempty label slice, the majority label is a label
occurring in the slice whose occurrence count is maximal, and among the
codes tied for the maximal count it is the smallest one. -/
theorem majority_label_spec (labels : List ℤ) (h : labels ≠ []) :
    majority_label labels ∈ labels ∧
    (∀ v : ℤ, labels.count v ≤ labels.count (majority_label labels)) ∧
    (∀ v ∈ labels, labels.count v = labels.count (majority_label labels) →
      majority_label labels ≤ v) := by
  have hvne : sortedUnique labels ≠ [] := by
    intro hempty
    rcases List.exists_mem_of_ne_nil labels h with ⟨a, ha⟩
    have : a ∈ sortedUnique labels := (mem_sortedUnique labels a).mpr ha
    rw [hempty] at this
    exact List.not_mem_nil a this
  obtain ⟨w, ws, hws⟩ := List.exists_cons_of_ne_nil hvne
  have hpairsEq : (sortedUnique labels).map (fun v => (v, labels.count v)) =
      (w, labels.count w) :: ws.map (fun v => (v, labels.count v)) := by
    rw [hws]; rfl
  set p : ℤ × ℕ := (w, labels.count w) with hp
  set ps : List (ℤ × ℕ) := ws.map (fun v => (v, labels.count v)) with hps
  have hpairwise : (p :: ps).Pairwise (fun a b => a.1 < b.1) := by
    rw [← hpairsEq]
    have := sortedUnique_pairwise_lt labels
    exact List.pairwise_map.mpr (this.imp (fun hab => hab))
  obtain ⟨hmem, hmax, htie⟩ := foldl_argStep_spec ps p hpairwise
  set r : ℤ × ℕ := ps.foldl argStep p with hr
  have hresult : majority_label labels = r.1 := by
    rw [majority_label, hpairsEq]; rfl
  -- every element of p :: ps is of the form (v, labels.count v) with v in labels
  have hshape : ∀ q ∈ p :: ps, q.2 = labels.count q.1 ∧ q.1 ∈ labels := by
    intro q hq
    have hq' : q ∈ (sortedUnique labels).map (fun v => (v, labels.count v)) := by
      rw [hpairsEq]; exact hq
    rcases List.mem_map.mp hq' with ⟨v, hv, hqv⟩
    subst hqv
    exact ⟨rfl, (mem_sortedUnique labels v).mp hv⟩
  obtain ⟨hr2, hr1⟩ := hshape r hmem
  have hcount : r.2 = labels.count (majority_label labels) := by rw [hresult]; exact hr2
  refine ⟨hresult ▸ hr1, ?_, ?_⟩
  · intro v
    by_cases hv : v ∈ labels
    · have hvmem : (v, labels.count v) ∈ p :: ps := by
        rw [← hpairsEq]
        exact List.mem_map_of_mem _ ((mem_sortedUnique labels v).mpr hv)
      have := hmax (v, labels.count v) hvmem
      simpa [← hcount] using this
    · rw [List.count_eq_zero_of_not_mem hv]
      exact Nat.zero_le _
  · intro v hv hveq
    have hvmem : (v, labels.count v) ∈ p :: ps := by
      rw [← hpairsEq]
      exact List.mem_map_of_mem _ ((mem_sortedUnique labels v).mpr hv)
    have : r.1 ≤ (v, labels.count v).1 := by
      refine htie (v, labels.count v) hvmem ?_
      simp only []
      omega
    rw [hresult]
    exact this

/-- Witness for C5 at the spec's own example, counts {1 ↦ 5, 2 ↦ 3}: the
majority label is a member of the slice, and it equals 1. -/
theorem majority_label_spec_witness :
    majority_label [1, 1, 1, 1, 1, 2, 2, 2] ∈ ([1, 1, 1, 1, 1, 2, 2, 2] : List ℤ) ∧
    majority_label [1, 1, 1, 1, 1, 2, 2, 2] = 1 :=
  ⟨(majority_label_spec [1, 1, 1, 1, 1, 2, 2, 2] (by decide)).1, by decide⟩

/-! ## Field-session unit normalization (`merge_local_and_train._normalize_local_units`) -/

/-- Median of a sorted nonempty list, as pandas computes it: the middle
element for odd length, the mean of the two middle elements for even
length. -/
def medianSorted (v : List ℚ) : ℚ :=
  if v.length % 2 = 1 then v.getD (v.length / 2) 0
  else (v.getD (v.length / 2 - 1) 0 + v.getD (v.length / 2) 0) / 2

/-- Median of a column with possible `NaN` cells, as
`Series.median(skipna=True)` computes it: drop the undefined cells, sort,
take the middle; an all-undefined column has median `NaN` (`none`). -/
def medianOpt (col : List (Option ℚ)) : Option ℚ :=
  let v := List.insertionSort (· ≤ ·) (col.filterMap id)
  if v.isEmpty then none else some (medianSorted v)

/-- The comparison `column.median(skipna=True) > t` of the source; a `NaN`
median compares false. -/
def medGT (col : List (Option ℚ)) (t : ℚ) : Bool :=
  match medianOpt col with
  | some m => decide (t < m)
  | none => false

/-- Shallow embedding of `_normalize_local_units` (`merge_local_and_train.py`
lines 101-109): one conditional divide-by-1000 on the conductance column,
then a divide-by-10 on the temperature column whose condition is tested
twice, re-evaluated after the first application. Division maps over defined
cells only (`NaN / c` is `NaN`). -/
def normalize_local_units (gsr temp : List (Option ℚ)) :
    List (Option ℚ) × List (Option ℚ) :=
  let gsr1 := if medGT gsr 50 then gsr.map (Option.map (fun v => v / 1000)) else gsr
  let temp1 := if medGT temp 80 then temp.map (Option.map (fun v => v / 10)) else temp
  let temp2 := if medGT temp1 80 then temp1.map (Option.map (fun v => v / 10)) else temp1
  (gsr1, temp2)

theorem filterMap_id_map_optmap (f : ℚ → ℚ) (col : List (Option ℚ)) :
    (col.map (Option.map f)).filterMap id = (col.filterMap id).map f := by
  induction col with
  | nil => rfl
  | cons a t ih => cases a <;> simp [ih]

theorem insertionSort_map_monotone (f : ℚ → ℚ) (hf : Monotone f) (l : List ℚ) :
    List.insertionSort (· ≤ ·) (l.map f) =
      (List.insertionSort (· ≤ ·) l).map f :=
  List.eq_of_perm_of_sorted
    ((List.perm_insertionSort _ _).trans
      (((List.perm_insertionSort (· ≤ ·) l).symm).map f))
    (List.sorted_insertionSort _ _)
    (List.Pairwise.map f (fun _ _ h => hf h) (List.sorted_insertionSort _ l))

theorem getD_map_of_lt (f : ℚ → ℚ) (v : List ℚ) (i : ℕ) (h : i < v.length) :
    (v.map f).getD i 0 = f (v.getD i 0) := by
  rw [List.getD_eq_getElem?_getD, List.getD_eq_getElem?_getD, List.getElem?_map,
    List.getElem?_eq_getElem h]
  rfl

theorem medianSorted_map_div (v : List ℚ) (c : ℚ) (hv : v ≠ []) :
    medianSorted (v.map (fun x => x / c)) = medianSorted v / c := by
  have hpos : 0 < v.length := List.length_pos.mpr hv
  unfold medianSorted
  rw [List.length_map]
  by_cases hodd : v.length % 2 = 1
  · rw [if_pos hodd, if_pos hodd, getD_map_of_lt _ _ _ (by omega)]
  · rw [if_neg hodd, if_neg hodd]
    have h2 : 2 ≤ v.length := by omega
    rw [getD_map_of_lt _ _ _ (by omega), getD_map_of_lt _ _ _ (by omega)]
    ring

theorem medianOpt_map_div (col : List (Option ℚ)) (c : ℚ) (hc : 0 < c) :
    medianOpt (col.map (Option.map (fun v => v / c))) =
      (medianOpt col).map (fun v => v / c) := by
  unfold medianOpt
  rw [filterMap_id_map_optmap,
    insertionSort_map_monotone _ (fun a b hab => (div_le_div_iff_of_pos_right hc).mpr hab) _]
  · set v := List.insertionSort (· ≤ ·) (col.filterMap id) with hv
    by_cases hempty : v.isEmpty
    · rw [List.isEmpty_iff] at hempty
      rw [hempty]
      rfl
    · have hne : v ≠ [] := by
        intro h
        rw [h] at hempty
        exact hempty rfl
      have hne' : ¬(v.map (fun x => x / c)).isEmpty := by
        rw [List.isEmpty_iff] at hempty ⊢
        intro h
        exact hempty (List.map_eq_nil_iff.mp h)
      rw [if_neg (by rwa [List.isEmpty_iff, List.map_eq_nil_iff] ),
        if_neg (by rwa [List.isEmpty_iff])]
      rw [medianSorted_map_div v c hne]
      rfl

/-- C6: (i) the conductance column is divided by 1000 exactly when the
condition `median > 50`, evaluated once on the original column, holds, and
the division is applied exactly once; (ii) hence a conductance column of
median `m > 50` (e.g. 1500) ends with median `m / 1000` (e.g. 1.5); (iii)
the temperature condition is re-evaluated after its first application and
can fire twice, as on the concrete column of constant 900. -/
theorem normalize_units_spec :
    (∀ gsr temp : List (Option ℚ),
      (normalize_local_units gsr temp).1 =
        if medGT gsr 50 then gsr.map (Option.map (fun v => v / 1000)) else gsr) ∧
    (∀ gsr temp : List (Option ℚ), ∀ m : ℚ, medianOpt gsr = some m → 50 < m →
      medianOpt (normalize_local_units gsr temp).1 = some (m / 1000)) ∧
    (normalize_local_units [] [some 900, some 900, some 900]).2 =
      [some 9, some 9, some 9] := by
  refine ⟨fun gsr temp => rfl, ?_, ?_⟩
  · intro gsr temp m hm h50
    have hcond : medGT gsr 50 = true := by
      rw [medGT, hm]
      exact decide_eq_true h50
    have h1 : (normalize_local_units gsr temp).1 =
        gsr.map (Option.map (fun v => v / 1000)) := by
      show (if medGT gsr 50 then _ else _) = _
      rw [hcond]
      rfl
    rw [h1, medianOpt_map_div gsr 1000 (by norm_num), hm]
    rfl
  · norm_num [normalize_local_units, medGT, medianOpt, medianSorted,
      List.insertionSort, List.orderedInsert, List.filterMap]

/-- Witness for C6 at the spec's example: a conductance column with median
1500 ends with median 1500/1000 = 1.5. -/
theorem normalize_units_spec_witness :
    medianOpt (normalize_local_units [some 1000, some 1500, some 2000] []).1 =
      some ((1500 : ℚ) / 1000) ∧ ((1500 : ℚ) / 1000) = (1.5 : ℚ) :=
  ⟨normalize_units_spec.2.1 [some 1000, some 1500, some 2000] [] 1500
    (by norm_num [medianOpt, medianSorted, List.insertionSort, List.orderedInsert,
      List.filterMap]) (by norm_num), by norm_num⟩

/-! ## Field-builder rolling statistics (`merge_local_and_train.py`) -/

/-- Trailing (causal) window of width `win` ending at row `i` inclusive:
the slice `arr[max(0, i - win + 1) : i + 1]` used by every rolling
computation of the field feature builder. -/
def window (xs : List ℚ) (win i : ℕ) : List ℚ :=
  (xs.take (i + 1)).drop (i + 1 - win)

/-- Sample variance (`ddof = 1`), the square of the pandas rolling `std`. -/
def sampleVar (l : List ℚ) : ℚ :=
  (l.map (fun v => (v - listMean l) ^ 2)).sum / ((l.length : ℚ) - 1)

/-- Modelled from the spec: pandas is an external collaborator, and
`Series.rolling(win, min_periods=minp).std().fillna(0.0)` at row `i` is the
sample standard deviation of the trailing window when at least `minp`
samples are available, else `NaN`, which `fillna` maps to 0
(`merge_local_and_train.py` lines 145, 152, 158). -/
noncomputable def rollingStdFilledAt (xs : List ℚ) (win minp i : ℕ) : ℝ :=
  if (window xs win i).length < minp then 0
  else Real.sqrt ((sampleVar (window xs win i) : ℚ) : ℝ)

/-- The whole rolling-std column. -/
noncomputable def rollingStdFilled (xs : List ℚ) (win minp : ℕ) : List ℝ :=
  (List.range xs.length).map (rollingStdFilledAt xs win minp)

/-- Shallow embedding of the loop body of `_rmssd_from_bpm_series`
(`merge_local_and_train.py` lines 70-83) at index `i`: keep the trailing
window samples that are finite and exceed `1e-6` (every value of the
rational model is finite), require at least 3 of them, convert to
inter-beat intervals `60000 / w`, and return the root mean square of the
successive differences. -/
noncomputable def rmssd_from_bpm_at (bpm : List ℚ) (win i : ℕ) : ℝ :=
  let w := (window bpm win i).filter (fun v => decide ((1e-6 : ℚ) < v))
  if w.length < 3 then 0
  else
    let rr := w.map (fun v => 60000 / v)
    let d := (rr.zip rr.tail).map (fun p => p.2 - p.1)
    if d.length = 0 then 0
    else Real.sqrt ((listMean (d.map (fun x => x * x)) : ℚ) : ℝ)

/-- The whole `_rmssd_from_bpm_series` column. -/
noncomputable def rmssd_from_bpm_series (bpm : List ℚ) (win : ℕ) : List ℝ :=
  (List.range bpm.length).map (rmssd_from_bpm_at bpm win)

/-- Shallow embedding of the loop body of `_sdnn_from_bpm_series`
(`merge_local_and_train.py` lines 86-98) at index `i`: same filtering,
require at least 2 samples, and return the population standard deviation
of the inter-beat intervals. -/
noncomputable def sdnn_from_bpm_at (bpm : List ℚ) (win i : ℕ) : ℝ :=
  let w := (window bpm win i).filter (fun v => decide ((1e-6 : ℚ) < v))
  if w.length < 2 then 0
  else Real.sqrt ((popVar (w.map (fun v => 60000 / v)) : ℚ) : ℝ)

/-- The whole `_sdnn_from_bpm_series` column. -/
noncomputable def sdnn_from_bpm_series (bpm : List ℚ) (win : ℕ) : List ℝ :=
  (List.range bpm.length).map (sdnn_from_bpm_at bpm win)

theorem length_filter_le_of_imp {p q : ℚ → Bool} (l : List ℚ)
    (h : ∀ a, p a = true → q a = true) :
    (l.filter p).length ≤ (l.filter q).length := by
  induction l with
  | nil => simp
  | cons a t ih =>
    by_cases hp : p a = true
    · rw [List.filter_cons_of_pos hp, List.filter_cons_of_pos (h a hp)]
      simpa using ih
    · rw [List.filter_cons_of_neg (by simpa using hp)]
      by_cases hq : q a = true
      · rw [List.filter_cons_of_pos hq]
        exact le_trans ih (Nat.le_succ _)
      · rw [List.filter_cons_of_neg (by simpa using hq)]
        exact ih

/-- C7: at every actual row `i` of the field builder, (i) the rolling
standard deviation over a trailing width-8 window holding fewer than 2
samples is reported as 0, not as undefined; (ii) the rolling RMSSD value is
0 whenever fewer than 3 finite strictly positive pulse-rate samples lie in
the window; (iii) the rolling SDNN value is 0 whenever fewer than 2 such
samples lie in the window. -/
theorem rolling_min_periods_spec (xs : List ℚ) (i : ℕ) (_hi : i < xs.length) :
    ((window xs 8 i).length < 2 → rollingStdFilledAt xs 8 2 i = 0) ∧
    (((window xs 8 i).filter (fun v => decide ((0 : ℚ) < v))).length < 3 →
      rmssd_from_bpm_at xs 8 i = 0) ∧
    (((window xs 8 i).filter (fun v => decide ((0 : ℚ) < v))).length < 2 →
      sdnn_from_bpm_at xs 8 i = 0) := by
  have hmono : ∀ a : ℚ, decide ((1e-6 : ℚ) < a) = true → decide ((0 : ℚ) < a) = true := by
    intro a ha
    rw [decide_eq_true_iff] at ha ⊢
    exact lt_trans (by norm_num) ha
  have hle := length_filter_le_of_imp (p := fun v => decide ((1e-6 : ℚ) < v))
    (q := fun v => decide ((0 : ℚ) < v)) (window xs 8 i) hmono
  refine ⟨?_, ?_, ?_⟩
  · intro h
    rw [rollingStdFilledAt, if_pos h]
  · intro h
    have h3 : ((window xs 8 i).filter
        (fun v => decide ((1e-6 : ℚ) < v))).length < 3 := lt_of_le_of_lt hle h
    simp only [rmssd_from_bpm_at]
    rw [if_pos h3]
  · intro h
    have h2 : ((window xs 8 i).filter
        (fun v => decide ((1e-6 : ℚ) < v))).length < 2 := lt_of_le_of_lt hle h
    simp only [sdnn_from_bpm_at]
    rw [if_pos h2]

/-- Witness for C7 at a concrete one-row series: the first row's trailing
window holds a single sample, so rolling std, RMSSD and SDNN all report 0. -/
theorem rolling_min_periods_spec_witness :
    rollingStdFilledAt [5] 8 2 0 = 0 ∧ rmssd_from_bpm_at [5] 8 0 = 0 ∧
    sdnn_from_bpm_at [5] 8 0 = 0 :=
  ⟨(rolling_min_periods_spec [5] 0 (by decide)).1 (by decide),
   (rolling_min_periods_spec [5] 0 (by decide)).2.1 (by norm_num [window, List.filter]),
   (rolling_min_periods_spec [5] 0 (by decide)).2.2 (by norm_num [window, List.filter])⟩

/-! ## Slope estimators (`merge_local_and_train._rolling_slope` and
`wesad_prepare._slope`) -/

/-- Shallow embedding of the loop body of `_rolling_slope`
(`merge_local_and_train.py` lines 53-66) on one window `y`: the explicit
least-squares formula against the index `x = arange(len(y))`, guarded by
`len(y) < 2` (slope 0) and a degenerate-denominator check `den < 1e-9`
(slope 0). -/
def slope_window_body (y : List ℚ) : ℚ :=
  if y.length < 2 then 0 else
  let n := y.length
  let xm : ℚ := (∑ k in Finset.range n, (k : ℚ)) / n
  let ym : ℚ := listMean y
  let den : ℚ := ∑ k in Finset.range n, ((k : ℚ) - xm) ^ 2
  if den < (1e-9 : ℚ) then 0
  else (∑ k in Finset.range n, ((k : ℚ) - xm) * (y.getD k 0 - ym)) / den

/-- The value `_rolling_slope` stores at row `i`: the body applied to the
trailing window. -/
def rolling_slope_at (values : List ℚ) (win i : ℕ) : ℚ :=
  slope_window_body (window values win i)

/-- The whole `_rolling_slope` column. -/
def rolling_slope (values : List ℚ) (win : ℕ) : List ℚ :=
  (List.range values.length).map (rolling_slope_at values win)

/-- Modelled from the spec: `np.polyfit(t, y, deg=1)[0]` of `_slope`
(`wesad_prepare.py` lines 40-46) is external numerics; per the spec it is
the ordinary-least-squares slope of the array against the evenly spaced
index 0,1,2,…, written here in normal-equation form, with the source's own
guard returning 0 for arrays shorter than 2 samples. -/
def slope (y : List ℚ) : ℚ :=
  if y.length < 2 then 0 else
  let n := y.length
  ((n : ℚ) * (∑ k in Finset.range n, (k : ℚ) * y.getD k 0)
      - (∑ k in Finset.range n, (k : ℚ)) * (∑ k in Finset.range n, y.getD k 0))
    / ((n : ℚ) * (∑ k in Finset.range n, (k : ℚ) ^ 2)
      - (∑ k in Finset.range n, (k : ℚ)) ^ 2)

theorem sum_range_cast (n : ℕ) :
    (∑ k in Finset.range n, (k : ℚ)) = n * (n - 1) / 2 := by
  induction n with
  | zero => norm_num
  | succ m ih =>
    rw [Finset.sum_range_succ, ih]
    push_cast
    ring

theorem sum_range_sq_cast (n : ℕ) :
    (∑ k in Finset.range n, (k : ℚ) ^ 2) = n * (n - 1) * (2 * n - 1) / 6 := by
  induction n with
  | zero => norm_num
  | succ m ih =>
    rw [Finset.sum_range_succ, ih]
    push_cast
    ring

theorem list_sum_eq_sum_getD (l : List ℚ) :
    l.sum = ∑ k in Finset.range l.length, l.getD k 0 := by
  induction l with
  | nil => simp
  | cons a t ih =>
    rw [List.sum_cons, List.length_cons, Finset.sum_range_succ', ih]
    simp [List.getD_cons_succ, List.getD_cons_zero, add_comm]

theorem slope_window_body_eq_slope (y : List ℚ) (h2 : 2 ≤ y.length) :
    slope_window_body y = slope y := by
  have hlen : ¬y.length < 2 := not_lt.mpr h2
  simp only [slope_window_body, slope]
  rw [if_neg hlen, if_neg hlen]
  set n := y.length with hn
  have hnQ : (2 : ℚ) ≤ (n : ℚ) := by exact_mod_cast h2
  have hnpos : (0 : ℚ) < (n : ℚ) := by linarith
  have hn0 : (n : ℚ) ≠ 0 := ne_of_gt hnpos
  set St : ℚ := ∑ k in Finset.range n, (k : ℚ) with hSt
  set S2 : ℚ := ∑ k in Finset.range n, (k : ℚ) ^ 2 with hS2
  set Sy : ℚ := ∑ k in Finset.range n, y.getD k 0 with hSy
  set Sty : ℚ := ∑ k in Finset.range n, (k : ℚ) * y.getD k 0 with hSty
  have hym : listMean y = Sy / n := by
    rw [listMean, list_sum_eq_sum_getD, hSy, hn]
  have hexp1 : ∀ k : ℕ, ((k : ℚ) - St / n) ^ 2 =
      (k : ℚ) ^ 2 - 2 * (St / n) * (k : ℚ) + (St / n) ^ 2 := fun k => by ring
  have hden : (∑ k in Finset.range n, ((k : ℚ) - St / n) ^ 2) =
      (n * S2 - St ^ 2) / n := by
    simp only [hexp1]
    rw [Finset.sum_add_distrib, Finset.sum_sub_distrib, ← Finset.mul_sum,
      Finset.sum_const, Finset.card_range, nsmul_eq_mul, ← hSt, ← hS2]
    field_simp
    ring
  have hexp2 : ∀ k : ℕ, ((k : ℚ) - St / n) * (y.getD k 0 - Sy / n) =
      ((k : ℚ) * y.getD k 0 - (St / n) * y.getD k 0) -
        ((Sy / n) * (k : ℚ) - (St / n) * (Sy / n)) := fun k => by ring
  have hnum : (∑ k in Finset.range n, ((k : ℚ) - St / n) * (y.getD k 0 - Sy / n)) =
      (n * Sty - St * Sy) / n := by
    simp only [hexp2]
    rw [Finset.sum_sub_distrib, Finset.sum_sub_distrib, Finset.sum_sub_distrib,
      ← Finset.mul_sum, ← Finset.mul_sum, Finset.sum_const, Finset.card_range,
      nsmul_eq_mul, ← hSt, ← hSy, ← hSty]
    field_simp
    ring
  have hSt_closed : St = n * ((n : ℚ) - 1) / 2 := sum_range_cast n
  have hS2_closed : S2 = n * ((n : ℚ) - 1) * (2 * n - 1) / 6 := sum_range_sq_cast n
  have hsimp : (n * S2 - St ^ 2) / n = (n : ℚ) * ((n : ℚ) - 1) * ((n : ℚ) + 1) / 12 := by
    rw [hSt_closed, hS2_closed]
    field_simp
    ring
  have hbound : (1 : ℚ) / 2 ≤ (n * S2 - St ^ 2) / n := by
    rw [hsimp]
    nlinarith [mul_nonneg (sub_nonneg.mpr hnQ)
      (show (0 : ℚ) ≤ (n : ℚ) ^ 2 + 2 * (n : ℚ) + 3 by positivity)]
  have hD0 : (n : ℚ) * S2 - St ^ 2 ≠ 0 := by
    have hpos : (0 : ℚ) < (n * S2 - St ^ 2) / n := lt_of_lt_of_le (by norm_num) hbound
    intro hcontra
    rw [hcontra] at hpos
    norm_num at hpos
  rw [hym, hden, hnum]
  rw [if_neg (by
    rw [not_lt]
    calc (1e-9 : ℚ) ≤ 1 / 2 := by norm_num
    _ ≤ (n * S2 - St ^ 2) / n := hbound)]
  rw [div_div_div_comm, div_self hn0, div_one]

/-- C10: on every common window holding at least two samples, the field
builder's explicit rolling least-squares slope and the reference path's
degree-1 polynomial-fit slope estimator agree: the degenerate-denominator
guard of the former never fires there, and both compute the same
ordinary-least-squares slope against the index 0,1,2,…. -/
theorem rolling_slope_matches_polyfit (values : List ℚ) (win i : ℕ)
    (h2 : 2 ≤ (window values win i).length) :
    rolling_slope_at values win i = slope (window values win i) :=
  slope_window_body_eq_slope (window values win i) h2

/-- Witness for C10 at a concrete series: the window at row 1 of [1, 3]
holds two samples, and both estimators return slope 2. -/
theorem rolling_slope_matches_polyfit_witness :
    rolling_slope_at [1, 3] 8 1 = slope (window [1, 3] 8 1) ∧
    slope (window [1, 3] 8 1) = 2 := by
  constructor
  · exact rolling_slope_matches_polyfit [1, 3] 8 1 (by norm_num [window])
  · rw [show window [1, 3] 8 1 = [1, 3] by norm_num [window]]
    norm_num [slope, Finset.sum_range_succ]

/-! ## Dataset harmonizer (`merge_local_and_train.main`, lines 261-262,
and `wesad_prepare.main`, lines 207-209) -/

/-- The sixteen feature column names (`FEATURE_COLUMNS` of the source). -/
def FEATURE_COLUMNS : List String :=
  ["bpm_avg", "bpm_min", "bpm_max", "bpm_std", "hrv_rmssd", "hrv_sdnn",
   "gsr_avg", "gsr_min", "gsr_max", "gsr_std", "gsr_slope",
   "temp_avg", "temp_min", "temp_max", "temp_std", "temp_slope"]

/-- A numeric table cell: a finite value, `NaN`, or a signed infinity. -/
inductive Cell where
  | num (q : ℚ)
  | nan
  | posInf
  | negInf
deriving DecidableEq

/-- Whether a cell is `NaN`. -/
def Cell.isNan : Cell → Bool
  | .nan => true
  | _ => false

/-- Whether a cell holds a finite numeric value. -/
def Cell.isFinite : Cell → Bool
  | .num _ => true
  | _ => false

/-- The `replace([np.inf, -np.inf], np.nan)` step on one cell. -/
def Cell.replaceInf : Cell → Cell
  | .posInf => .nan
  | .negInf => .nan
  | c => c

/-- One row of the combined feature table: a subject identifier (`none`
models a missing subject), a label cell, and the sixteen feature cells in
the order of `FEATURE_COLUMNS`. -/
structure FeatureRow where
  subject : Option String
  label : Cell
  features : Fin 16 → Cell
deriving DecidableEq

/-- The `replace([np.inf, -np.inf], np.nan)` step on one row. -/
def replaceInfRow (r : FeatureRow) : FeatureRow :=
  { subject := r.subject, label := r.label.replaceInf,
    features := fun j => (r.features j).replaceInf }

/-- The `dropna(subset=FEATURE_COLUMNS + ["label", "subject"])` predicate
after infinity replacement: the row is kept when the subject is present and
neither the label cell nor any feature cell is `NaN`. -/
def keepRow (r : FeatureRow) : Bool :=
  r.subject.isSome && !r.label.isNan &&
    decide (∀ j : Fin 16, (r.features j).isNan = false)

/-- Shallow embedding of the harmonizer scrub
(`combined.replace([np.inf, -np.inf], np.nan).dropna(subset=...)`): replace
infinities by `NaN` in every row, then drop every row with a `NaN` (or
missing subject) among the subject, label and sixteen feature columns. -/
def harmonize (rows : List FeatureRow) : List FeatureRow :=
  (rows.map replaceInfRow).filter keepRow

theorem replaceInf_not_nan_finite (c : Cell) (h : c.replaceInf.isNan = false) :
    c.replaceInf.isFinite = true := by
  cases c <;> simp [Cell.replaceInf, Cell.isNan, Cell.isFinite] at h ⊢

theorem replaceInf_eq_self_of_not_nan (c : Cell) (h : c.replaceInf.isNan = false) :
    c.replaceInf = c := by
  cases c <;> simp [Cell.replaceInf, Cell.isNan] at h ⊢

theorem keepRow_replaceInfRow_eq_self (r : FeatureRow)
    (h : keepRow (replaceInfRow r) = true) : replaceInfRow r = r := by
  rw [keepRow, Bool.and_eq_true, Bool.and_eq_true] at h
  obtain ⟨⟨_, hlabel⟩, hfeat⟩ := h
  rw [decide_eq_true_iff] at hfeat
  have hlabel' : (replaceInfRow r).label.isNan = false := by
    simpa using hlabel
  rcases r with ⟨s, lab, f⟩
  simp only [replaceInfRow] at hlabel' hfeat ⊢
  congr 1
  · exact replaceInf_eq_self_of_not_nan lab hlabel'
  · funext j
    exact replaceInf_eq_self_of_not_nan (f j) (hfeat j)

/-- C8: every row surviving the harmonizer scrub has a present subject, a
finite label, and sixteen finite feature values; and the surviving rows are
a sublist of the input rows — rows are dropped, never imputed or altered. -/
theorem harmonize_spec (rows : List FeatureRow) :
    (∀ r ∈ harmonize rows, r.subject.isSome = true ∧ r.label.isFinite = true ∧
      ∀ j : Fin 16, (r.features j).isFinite = true) ∧
    (harmonize rows).Sublist rows := by
  constructor
  · intro r hr
    rw [harmonize, List.mem_filter] at hr
    obtain ⟨hmem, hkeep⟩ := hr
    rcases List.mem_map.mp hmem with ⟨r0, _, hr0⟩
    rw [keepRow, Bool.and_eq_true, Bool.and_eq_true] at hkeep
    obtain ⟨⟨hsubj, hlabel⟩, hfeat⟩ := hkeep
    rw [decide_eq_true_iff] at hfeat
    rw [← hr0] at hsubj hlabel hfeat ⊢
    refine ⟨hsubj, ?_, ?_⟩
    · exact replaceInf_not_nan_finite r0.label (by simpa [replaceInfRow] using hlabel)
    · intro j
      exact replaceInf_not_nan_finite (r0.features j)
        (by simpa [replaceInfRow] using hfeat j)
  · induction rows with
    | nil => simp [harmonize]
    | cons a t ih =>
      by_cases h : keepRow (replaceInfRow a) = true
      · have hstep : harmonize (a :: t) = replaceInfRow a :: harmonize t := by
          simp [harmonize, h]
        rw [hstep, keepRow_replaceInfRow_eq_self a h]
        exact ih.cons₂ a
      · have hstep : harmonize (a :: t) = harmonize t := by
          simp [harmonize, h]
        rw [hstep]
        exact ih.cons a

/-- Witness for C8 on a concrete one-row table with finite cells. -/
theorem harmonize_spec_witness :
    (⟨some "S2", Cell.num 1, fun _ => Cell.num 2⟩ : FeatureRow).subject.isSome = true ∧
    (⟨some "S2", Cell.num 1, fun _ => Cell.num 2⟩ : FeatureRow).label.isFinite = true ∧
    ((⟨some "S2", Cell.num 1, fun _ => Cell.num 2⟩ : FeatureRow).features 0).isFinite
      = true := by
  have h := (harmonize_spec [⟨some "S2", Cell.num 1, fun _ => Cell.num 2⟩]).1
    ⟨some "S2", Cell.num 1, fun _ => Cell.num 2⟩ (by decide)
  exact ⟨h.1, h.2.1, h.2.2 0⟩

/-! ## Field-session ingestion and its error policy
(`merge_local_and_train.build_local_features` and `main`) -/

/-- One parsed row of a field-session table: the three numeric columns
after `pd.to_numeric(..., errors="coerce")` (`none` models a value that
failed to parse) and the activity label. The label is modelled after the
`str.strip().str.lower()` normalization of the source, i.e. already
trimmed and lowercased. -/
structure LocalRow where
  bpm : Option ℚ
  gsr : Option ℚ
  temp : Option ℚ
  label : String
deriving DecidableEq

/-- A field-session file: its name, its column header, and its rows. -/
structure SessionFile where
  name : String
  columns : List String
  rows : List LocalRow
deriving DecidableEq

/-- The required columns of a local session CSV (`LOCAL_REQUIRED`). -/
def LOCAL_REQUIRED : List String :=
  ["time_iso", "ts", "bpm_avg", "gsr_avg", "temp_avg", "label"]

/-- The fixed label vocabulary (`label_map` of `build_local_features`):
rest/recovery/unlabeled ↦ 0, stress_task/stress ↦ 1, anything else
undefined. -/
def label_map (s : String) : Option ℤ :=
  if s = "rest" ∨ s = "recovery" ∨ s = "unlabeled" then some 0
  else if s = "stress_task" ∨ s = "stress" then some 1
  else none

/-- The columns of `LOCAL_REQUIRED` missing from a session file
(`[c for c in LOCAL_REQUIRED if c not in df.columns]`). -/
def missingColumns (f : SessionFile) : List String :=
  LOCAL_REQUIRED.filter (fun c => !f.columns.contains c)

/-- The row-level cleaning of `build_local_features`:
`dropna(subset=["bpm_avg", "gsr_avg", "temp_avg", "label_bin"])` keeps the
rows whose three numeric values parsed and whose label is in the
vocabulary. Row-level defects never raise; bad rows are dropped. -/
def cleanLocalRows (rows : List LocalRow) : List LocalRow :=
  rows.filter (fun r => r.bpm.isSome && r.gsr.isSome && r.temp.isSome &&
    (label_map r.label).isSome)

/-- Shallow embedding of `build_local_features`
(`merge_local_and_train.py` lines 112-162) at the granularity the error
policy needs: a file missing required columns raises `ValueError` (the
`Except.error` branch); otherwise the function totally computes its output
from the kept rows — the unit normalization and the sixteen per-row rolling
features are the total functions `normalize_local_units`,
`rollingStdFilledAt`, `rmssd_from_bpm_at`, `sdnn_from_bpm_at` and
`rolling_slope_at` defined above, so no further exception is possible. The
result carries the cleaned rows those computations consume. -/
def build_local_features (f : SessionFile) : Except String (List LocalRow) :=
  if missingColumns f ≠ [] then Except.error (f.name ++ " missing columns")
  else Except.ok (cleanLocalRows f.rows)

/-- Shallow embedding of the loop over session files in `main`
(`merge_local_and_train.py` lines 256-258): the files are processed in
order with no exception handling, so the first `ValueError` aborts the
whole run. -/
def processLocalFiles : List SessionFile → Except String (List (List LocalRow))
  | [] => Except.ok []
  | f :: fs =>
    match build_local_features f with
    | Except.error e => Except.error e
    | Except.ok t =>
      match processLocalFiles fs with
      | Except.error e => Except.error e
      | Except.ok ts => Except.ok (t :: ts)

/-- A well-formed session file holding one usable row. -/
def goodSession : SessionFile :=
  { name := "walk.csv", columns := LOCAL_REQUIRED,
    rows := [{ bpm := some 70, gsr := some 2, temp := some 33, label := "rest" }] }

/-- A session file missing four required columns. -/
def badSession : SessionFile :=
  { name := "broken.csv", columns := ["time_iso", "ts"],
    rows := [{ bpm := some 70, gsr := some 2, temp := some 33, label := "rest" }] }

/-- C9 counterexample: one malformed session file aborts the whole
merge run even though the other session file holds usable data (its
cleaned row set is nonempty), contradicting the claim that processing
continues past any one malformed session file. -/
theorem single_bad_session_aborts_cex :
    processLocalFiles [goodSession, badSession] =
      Except.error "broken.csv missing columns" ∧
    cleanLocalRows goodSession.rows =
      [{ bpm := some 70, gsr := some 2, temp := some 33, label := "rest" }] := by
  constructor
  · rfl
  · rfl

/-- C9 (amended): the merge run survives its session-file loop exactly
when every session file carries all required columns — a single session
file missing a required column aborts the whole run regardless of how much
usable data remains — whereas row-level malformed data (unparseable
numeric values, labels outside the vocabulary) never aborts: a
column-complete file is always processed successfully, its bad rows
silently dropped. -/
theorem local_session_error_policy (files : List SessionFile) :
    ((processLocalFiles files).isOk = true ↔
      ∀ f ∈ files, missingColumns f = []) ∧
    (∀ f : SessionFile, missingColumns f = [] →
      build_local_features f = Except.ok (cleanLocalRows f.rows)) := by
  have hbuild : ∀ f : SessionFile, missingColumns f = [] →
      build_local_features f = Except.ok (cleanLocalRows f.rows) := by
    intro f hf
    rw [build_local_features, if_neg (by simp [hf])]
  refine ⟨?_, hbuild⟩
  induction files with
  | nil => simp [processLocalFiles, Except.isOk, Except.toBool]
  | cons f fs ih =>
    by_cases hf : missingColumns f = []
    · rw [show processLocalFiles (f :: fs) =
          (match build_local_features f with
          | Except.error e => Except.error e
          | Except.ok t =>
            match processLocalFiles fs with
            | Except.error e => Except.error e
            | Except.ok ts => Except.ok (t :: ts)) from rfl,
        hbuild f hf]
      cases hrec : processLocalFiles fs with
      | error e =>
        simp only [hrec] at ih
        simp only [Except.isOk, Except.toBool] at ih ⊢
        simp [hf]
        have hnall : ¬∀ x ∈ fs, missingColumns x = [] := fun hall => by
          simpa using ih.mpr hall
        push_neg at hnall
        exact hnall
      | ok ts =>
        simp only [hrec] at ih
        simp only [Except.isOk, Except.toBool] at ih ⊢
        simp [hf]
        simpa using ih
    · rw [show processLocalFiles (f :: fs) =
          (match build_local_features f with
          | Except.error e => Except.error e
          | Except.ok t =>
            match processLocalFiles fs with
            | Except.error e => Except.error e
            | Except.ok ts => Except.ok (t :: ts)) from rfl]
      rw [build_local_features, if_pos (by simpa using hf)]
      simp only [Except.isOk, Except.toBool]
      simp only [Bool.false_eq_true, false_iff]
      intro hcontra
      exact absurd (hcontra f (List.mem_cons_self f fs)) hf

/-- Witness for C9 (amended) at a concrete column-complete file: the good
session is processed successfully into its cleaned rows. -/
theorem local_session_error_policy_witness :
    build_local_features goodSession = Except.ok (cleanLocalRows goodSession.rows) :=
  (local_session_error_policy []).2 goodSession (by rfl)

/-! ## Group-aware train/evaluation split
(`train_combined` lines 170-175 and `train_stress_model.main` lines 60-64) -/

/-- Modelled from the spec: `GroupShuffleSplit(n_splits=1, test_size=...,
random_state=...)` is external sklearn code. Per the spec it draws a
fraction- and seed-dependent set of held-out subject groups and places a
row in the evaluation partition exactly when its group was drawn, so that
no group straddles both sides. The seeded random draw itself is abstracted
as the function parameter `chooser`; the result is the pair
`(g_train, g_test)` of per-row group labels of the two partitions. -/
def group_shuffle_split {G : Type} [DecidableEq G]
    (chooser : List G → ℚ → ℕ → List G) (groups : List G)
    (testSize : ℚ) (seed : ℕ) : List G × List G :=
  let tg := chooser groups testSize seed
  (groups.filter (fun g => decide (g ∉ tg)),
   groups.filter (fun g => decide (g ∈ tg)))

/-- C2: for every harmonized per-row group column and every invocation of
the group-aware split — any held-out-group draw, any evaluation fraction,
any random seed — the set of subject groups occurring in the training
partition and the set occurring in the evaluation partition are disjoint. -/
theorem group_split_disjoint {G : Type} [DecidableEq G]
    (chooser : List G → ℚ → ℕ → List G) (groups : List G)
    (testSize : ℚ) (seed : ℕ) :
    (group_shuffle_split chooser groups testSize seed).1.toFinset ∩
      (group_shuffle_split chooser groups testSize seed).2.toFinset = ∅ := by
  ext g
  simp only [Finset.mem_inter, List.mem_toFinset, Finset.not_mem_empty, iff_false,
    group_shuffle_split, List.mem_filter, decide_eq_true_iff]
  rintro ⟨⟨-, hnot⟩, ⟨-, hin⟩⟩
  exact hnot hin

/-! ## Portable model export and artifact inference
(`train_combined` lines 181-228 and `train_stress_model.main` lines 66-119) -/

/-- The logistic link applied by the binary logistic-regression model. -/
noncomputable def sigmoid (t : ℝ) : ℝ := 1 / (1 + Real.exp (-t))

/-- The parameters of the fitted `StandardScaler` + `LogisticRegression`
pipeline: per-feature standardization mean and scale, coefficient vector,
and intercept. -/
structure FittedPipeline where
  scalerMean : Fin 16 → ℝ
  scalerScale : Fin 16 → ℝ
  coef : Fin 16 → ℝ
  intercept : ℝ

/-- Modelled from the spec: `pipe.predict_proba(x)[1]` of the sklearn
pipeline is external library code; per the spec the fitted model is the
standardization composed with the affine map and logistic link, so the
positive-class probability is
`sigmoid(dot(coef, (x - mean)/scale) + intercept)`. -/
noncomputable def pipe_predict_proba (m : FittedPipeline) (x : Fin 16 → ℝ) : ℝ :=
  sigmoid ((∑ j, m.coef j * ((x j - m.scalerMean j) / m.scalerScale j)) + m.intercept)

/-- The evaluation-time decision of the training pipeline:
`pred = (prob >= 0.5)` (`merge_local_and_train.py` line 191,
`train_stress_model.py` line 83). -/
noncomputable def pipe_pred_positive (m : FittedPipeline) (x : Fin 16 → ℝ) : Prop :=
  (0.5 : ℝ) ≤ pipe_predict_proba m x

/-- The portable model artifact (`model_flutter.json`). -/
structure FlutterModel where
  modelType : String
  features : List String
  scaler_mean : Fin 16 → ℝ
  scaler_scale : Fin 16 → ℝ
  coef : Fin 16 → ℝ
  intercept : ℝ
  threshold : ℝ

/-- Shallow embedding of the export of the portable model artifact
(`merge_local_and_train.py` lines 217-225, identically
`train_stress_model.py` lines 108-116): the scaler statistics, coefficient
vector and intercept of the fitted pipeline, plus the fixed threshold 0.5. -/
def export_flutter_model (m : FittedPipeline) : FlutterModel :=
  { modelType := "logistic_regression_binary",
    features := FEATURE_COLUMNS,
    scaler_mean := m.scalerMean,
    scaler_scale := m.scalerScale,
    coef := m.coef,
    intercept := m.intercept,
    threshold := 0.5 }

/-- Written from the spec's words (the refinement target of C1): inference
recomputed by a foreign runtime from the artifact alone,
`sigmoid(dot((x - mean)/scale, coef) + intercept)`. -/
noncomputable def artifact_proba (a : FlutterModel) (x : Fin 16 → ℝ) : ℝ :=
  sigmoid ((∑ j, a.coef j * ((x j - a.scaler_mean j) / a.scaler_scale j)) + a.intercept)

/-- Written from the spec's words: thresholding the recomputed probability
at the artifact's own fixed threshold. -/
noncomputable def artifact_pred_positive (a : FlutterModel) (x : Fin 16 → ℝ) : Prop :=
  a.threshold ≤ artifact_proba a x

/-- C1: for every fitted pipeline and every feature row, recomputing the
probability from the exported portable artifact via
`sigmoid(dot((x - mean)/scale, coef) + intercept)` reproduces the training
pipeline's own evaluation-time probability exactly, and thresholding it at
the artifact's fixed threshold 0.5 reproduces the evaluation-time
positive/negative prediction. -/
theorem flutter_export_roundtrip (m : FittedPipeline) (x : Fin 16 → ℝ) :
    artifact_proba (export_flutter_model m) x = pipe_predict_proba m x ∧
    (artifact_pred_positive (export_flutter_model m) x ↔ pipe_pred_positive m x) :=
  ⟨rfl, Iff.rfl⟩

end StressMonitor
